import Mathlib

/-!
Shallow embedding of the naive Bayes text classifier (`naive/naive.go`).

Modelling choices:
* Go `float64` arithmetic is modelled by exact rational arithmetic (`ℚ`).
* The Go map `Feat2cat : map[string]map[string]int` is modelled as a total
  function `String → String → Nat` (absent keys read as 0, exactly the Go
  zero-value semantics used by `featureCount`).
* The Go map `CatCount : map[string]int` is modelled as an association list
  `List (String × Nat)`; its key list stands for the (unspecified) map
  iteration order that `categories()` produces, with insertion order as the
  concrete choice.
* The tokenizer is an external collaborator: `Train`/`ClassifyString` are
  modelled on the list of feature tokens the tokenizer emits for a document.
* `ClassifyString`'s error path (`ErrNotClassified`) is modelled by `none`.
-/

namespace NaiveBayes

/-- State of `naive.Classifier`: token×category counts and per-category
document counts. -/
structure Classifier where
  feat2cat : String → String → Nat
  catCount : List (String × Nat)

/-- `New()`: empty frequency store. -/
def New : Classifier :=
  { feat2cat := fun _ _ => 0, catCount := [] }

/-- Lookup in an association list, mirroring Go map access `m[k]` with its
`ok` flag: `none` when the key is absent. -/
def lookupCat : List (String × Nat) → String → Option Nat
  | [], _ => none
  | (k, v) :: rest, c => if k = c then some v else lookupCat rest c

/-- Go `m[k]++` on a `map[string]int`: increment the entry, inserting the key
with value 1 when absent (appended last, standing for a fresh key). -/
def bump : List (String × Nat) → String → List (String × Nat)
  | [], c => [(c, 1)]
  | (k, v) :: rest, c => if k = c then (k, v + 1) :: rest else (k, v) :: bump rest c

/-- `addFeature`: `Feat2cat[feature][category]++`. -/
def addFeature (cl : Classifier) (feature category : String) : Classifier :=
  { cl with
    feat2cat := fun f c =>
      if f = feature ∧ c = category then cl.feat2cat f c + 1 else cl.feat2cat f c }

/-- `addCategory`: `CatCount[category]++`. -/
def addCategory (cl : Classifier) (category : String) : Classifier :=
  { cl with catCount := bump cl.catCount category }

/-- `Train(r, category)`: add every token the tokenizer emits for the
document (here: the list `features`, one element per emitted token), then
bump the category's document count. -/
def Train (cl : Classifier) (features : List String) (category : String) : Classifier :=
  addCategory (features.foldl (fun s f => addFeature s f category) cl) category

/-- A sequence of training calls, applied in order. -/
def trainAll (cl : Classifier) : List (List String × String) → Classifier
  | [] => cl
  | (fs, c) :: rest => trainAll (Train cl fs c) rest

/-- `featureCount`: `float64(Feat2cat[feature][category])`, 0 when absent. -/
def featureCount (cl : Classifier) (feature category : String) : ℚ :=
  (cl.feat2cat feature category : ℚ)

/-- `categoryCount`: `float64(CatCount[category])`, 0 when absent. -/
def categoryCount (cl : Classifier) (category : String) : ℚ :=
  ((lookupCat cl.catCount category).getD 0 : ℚ)

/-- `count()`: sum of all per-category document counts (an `int` in Go). -/
def countNat (cl : Classifier) : Nat :=
  (cl.catCount.map Prod.snd).sum

/-- `categories()`: the keys of `CatCount`, in iteration order. -/
def categories (cl : Classifier) : List String :=
  cl.catCount.map Prod.fst

/-- `featureProbability`: guarded conditional probability
`featureCount / categoryCount`, 0 when the category has no documents. -/
def featureProbability (cl : Classifier) (feature category : String) : ℚ :=
  if categoryCount cl category = 0 then 0
  else featureCount cl feature category / categoryCount cl category

/-- The `sum` accumulated by `variableWeightedProbability`'s loop: the
feature's occurrence count summed over the known categories, in iteration
order. -/
def evidenceList (cl : Classifier) (feature : String) : ℚ :=
  ((categories cl).map (fun c => featureCount cl feature c)).sum

/-- `variableWeightedProbability`: blend the conditional probability with an
assumed probability, weighted by the token's total evidence across all
known categories. -/
def variableWeightedProbability (cl : Classifier) (feature category : String)
    (weight assumedProb : ℚ) : ℚ :=
  ((weight * assumedProb) + (evidenceList cl feature * featureProbability cl feature category)) /
    (weight + evidenceList cl feature)

/-- `weightedProbability`: `variableWeightedProbability` at weight 1.0 and
assumed probability 0.5. -/
def weightedProbability (cl : Classifier) (feature category : String) : ℚ :=
  variableWeightedProbability cl feature category 1 (1 / 2)

/-- `docProbability`: product of the weighted probabilities of the input
tokens, one factor per token occurrence. -/
def docProbability (cl : Classifier) (features : List String) (category : String) : ℚ :=
  features.foldl (fun p f => p * weightedProbability cl f category) 1

/-- `probability`: document probability times the category's prior share of
training documents. -/
def probability (cl : Classifier) (features : List String) (category : String) : ℚ :=
  docProbability cl features category * (categoryCount cl category / (countNat cl : ℚ))

/-- One step of `ClassifyString`'s loop: track the maximum score and its
category under strict greater-than. -/
def classifyStep (cl : Classifier) (features : List String) (acc : ℚ × String)
    (category : String) : ℚ × String :=
  if probability cl features category > acc.1
  then (probability cl features category, category)
  else acc

/-- `ClassifyString` on an already-tokenized document: fold the categories
with sentinel `(0, "")`; return `none` (ErrNotClassified) when the tracked
winner label is still `""`. -/
def ClassifyString (cl : Classifier) (features : List String) : Option String :=
  let r := (categories cl).foldl (classifyStep cl features) (0, "")
  if r.2 = "" then none else some r.2

/-- One step of `Probabilities`' loop: record the score when it is positive,
and track the best score and its category. -/
def probStep (cl : Classifier) (features : List String)
    (acc : List (String × ℚ) × ℚ × String) (category : String) :
    List (String × ℚ) × ℚ × String :=
  let p := probability cl features category
  let m := if p > 0 then acc.1 ++ [(category, p)] else acc.1
  if p > acc.2.1 then (m, p, category) else (m, acc.2.1, acc.2.2)

/-- `Probabilities` on an already-tokenized document: the map of positive
scores together with the best-scoring category (`""` when none is positive).
Total — it has no error path. -/
def Probabilities (cl : Classifier) (features : List String) :
    List (String × ℚ) × String :=
  let r := (categories cl).foldl (probStep cl features) ([], 0, "")
  (r.1, r.2.2)

/-! Quantities written down the way the specification words them. up to the
set-vs-iteration-order distinction these are the spec's `conditionalRaw`,
`evidenceWeight` and `categoryPrior`. -/

/-- Spec: `conditionalRaw(token, category) =
tokenCategoryCounts[token][category] / categoryDocumentCounts[category]`,
defined as 0 when the category has zero documents. -/
def specConditionalRaw (cl : Classifier) (token category : String) : ℚ :=
  if (lookupCat cl.catCount category).getD 0 = 0 then 0
  else (cl.feat2cat token category : ℚ) / ((lookupCat cl.catCount category).getD 0 : ℚ)

/-- Spec: the total occurrence count of a token across all known
categories, as a natural number (`Σ_c tokenCategoryCounts[token][c]`). -/
def specTotalCount (cl : Classifier) (token : String) : ℕ :=
  (categories cl).toFinset.sum (fun c => cl.feat2cat token c)

/-- Spec: `evidenceWeight = Σ_c tokenCategoryCounts[token][c]`. -/
def specEvidenceWeight (cl : Classifier) (token : String) : ℚ :=
  (specTotalCount cl token : ℚ)

/-- Spec: `categoryPrior(category) = categoryDocumentCounts[category] /
totalTrainingCount`. -/
def categoryPrior (cl : Classifier) (category : String) : ℚ :=
  categoryCount cl category / (countNat cl : ℚ)

/-- Repeated training of the single-token document `[t]` under category `c`:
the growth process of claim C8 (evidence for `t` in `c` grows, all other
categories held fixed). -/
def trainTimes (cl : Classifier) (t c : String) : Nat → Classifier
  | 0 => cl
  | k + 1 => Train (trainTimes cl t c k) [t] c

/-! Concrete trained stores used as witnesses and counterexamples. -/

/-- Two categories, disjoint vocabulary. -/
def clTwoCats : Classifier := Train (Train New ["a"] "A") ["b"] "B"

/-- Category "A" trained twice; token "t" seen once in "A", so its raw
conditional probability is exactly 1/2. -/
def clRepeatA : Classifier := Train (Train New ["t"] "A") ["u"] "A"

/-- A store whose only category is the empty-string label. -/
def clEmptyLabel : Classifier := Train New ["x"] ""

/-- Category "c" trained twice with a document not containing "y". -/
def clC8a : Classifier := Train (Train New ["x"] "c") ["x"] "c"

/-- One training call of token "t" under category "c". -/
def clOne : Classifier := Train New ["t"] "c"

/-! ### Basic lemmas about the store operations -/

theorem lookupCat_bump_self (l : List (String × Nat)) (c : String) :
    lookupCat (bump l c) c = some ((lookupCat l c).getD 0 + 1) := by
  induction l with
  | nil => simp [bump, lookupCat]
  | cons p rest ih =>
    obtain ⟨k, v⟩ := p
    by_cases hk : k = c
    · subst hk; simp [bump, lookupCat]
    · simp [bump, lookupCat, hk, ih]

theorem lookupCat_bump_ne (l : List (String × Nat)) (c c' : String) (h : c' ≠ c) :
    lookupCat (bump l c) c' = lookupCat l c' := by
  induction l with
  | nil => simp [bump, lookupCat, Ne.symm h]
  | cons p rest ih =>
    obtain ⟨k, v⟩ := p
    by_cases hk : k = c
    · subst hk
      simp [bump, lookupCat, Ne.symm h]
    · simp [bump, lookupCat, hk, ih]

theorem keys_bump_of_mem (l : List (String × Nat)) (c : String)
    (h : c ∈ l.map Prod.fst) : (bump l c).map Prod.fst = l.map Prod.fst := by
  induction l with
  | nil => simp at h
  | cons p rest ih =>
    obtain ⟨k, v⟩ := p
    by_cases hk : k = c
    · subst hk; simp [bump]
    · have hc : c ∈ rest.map Prod.fst := by
        simpa [Ne.symm hk] using h
      simp [bump, hk, ih hc]

theorem mem_keys_bump (l : List (String × Nat)) (c : String) :
    c ∈ (bump l c).map Prod.fst := by
  induction l with
  | nil => simp [bump]
  | cons p rest ih =>
    obtain ⟨k, v⟩ := p
    by_cases hk : k = c
    · subst hk; simp [bump]
    · simp [bump, hk, ih]

theorem mem_keys_bump_of_mem (l : List (String × Nat)) (c c' : String)
    (h : c' ∈ l.map Prod.fst) : c' ∈ (bump l c).map Prod.fst := by
  induction l with
  | nil => simp at h
  | cons p rest ih =>
    obtain ⟨k, v⟩ := p
    by_cases hk : k = c
    · subst hk; simpa [bump] using h
    · rcases (by simpa using h : c' = k ∨ c' ∈ rest.map Prod.fst) with h' | h'
      · simp [bump, hk, h']
      · simp [bump, hk, ih h']

theorem sum_bump (l : List (String × Nat)) (c : String) :
    ((bump l c).map Prod.snd).sum = (l.map Prod.snd).sum + 1 := by
  induction l with
  | nil => simp [bump]
  | cons p rest ih =>
    obtain ⟨k, v⟩ := p
    by_cases hk : k = c
    · subst hk; simp [bump]; omega
    · simp [bump, hk, ih]; omega

theorem mem_keys_bump_iff (l : List (String × Nat)) (c c' : String) :
    c' ∈ (bump l c).map Prod.fst ↔ c' ∈ l.map Prod.fst ∨ c' = c := by
  induction l with
  | nil => simp [bump]
  | cons p rest ih =>
    obtain ⟨k, v⟩ := p
    by_cases hk : k = c
    · subst hk
      have hb : bump ((k, v) :: rest) k = (k, v + 1) :: rest := by simp [bump]
      rw [hb]
      simp only [List.map_cons, List.mem_cons]
      tauto
    · have hb : bump ((k, v) :: rest) c = (k, v) :: bump rest c := by simp [bump, hk]
      rw [hb]
      simp only [List.map_cons, List.mem_cons, ih]
      tauto

theorem nodup_keys_bump (l : List (String × Nat)) (c : String)
    (h : (l.map Prod.fst).Nodup) : ((bump l c).map Prod.fst).Nodup := by
  induction l with
  | nil => simp [bump]
  | cons p rest ih =>
    obtain ⟨k, v⟩ := p
    simp only [List.map_cons, List.nodup_cons] at h
    by_cases hk : k = c
    · subst hk; simpa [bump] using h
    · have h1 : k ∉ (bump rest c).map Prod.fst := by
        intro hmem
        rcases (mem_keys_bump_iff rest c k).mp hmem with h' | h'
        · exact h.1 h'
        · exact hk h'
      have hb : bump ((k, v) :: rest) c = (k, v) :: bump rest c := by simp [bump, hk]
      rw [hb]
      simp only [List.map_cons, List.nodup_cons]
      exact ⟨h1, ih h.2⟩

/-! ### Training leaves `catCount` to `bump`, and only bumps the feature -/

theorem foldl_addFeature_catCount (cl : Classifier) (fs : List String) (c : String) :
    (fs.foldl (fun s f => addFeature s f c) cl).catCount = cl.catCount := by
  induction fs generalizing cl with
  | nil => rfl
  | cons f rest ih => simpa [addFeature] using ih (addFeature cl f c)

theorem Train_catCount (cl : Classifier) (fs : List String) (c : String) :
    (Train cl fs c).catCount = bump cl.catCount c := by
  simp [Train, addCategory, foldl_addFeature_catCount]

theorem foldl_addFeature_feat2cat (cl : Classifier) (fs : List String) (c : String)
    (f c' : String) :
    (fs.foldl (fun s g => addFeature s g c) cl).feat2cat f c' =
      cl.feat2cat f c' + (if c' = c then fs.count f else 0) := by
  induction fs generalizing cl with
  | nil => simp
  | cons g rest ih =>
    rw [List.foldl_cons, ih (addFeature cl g c)]
    by_cases hc : c' = c
    · subst hc
      by_cases hf : f = g
      · subst hf
        simp [addFeature, List.count_cons]
        omega
      · simp [addFeature, hf, List.count_cons, Ne.symm hf]
    · simp [addFeature, hc]

theorem Train_feat2cat (cl : Classifier) (fs : List String) (c : String) (f c' : String) :
    (Train cl fs c).feat2cat f c' =
      cl.feat2cat f c' + (if c' = c then fs.count f else 0) := by
  simp [Train, addCategory, foldl_addFeature_feat2cat]

theorem countNat_Train (cl : Classifier) (fs : List String) (c : String) :
    countNat (Train cl fs c) = countNat cl + 1 := by
  simp [countNat, Train_catCount, sum_bump]

theorem countNat_trainAll (cl : Classifier) (calls : List (List String × String)) :
    countNat (trainAll cl calls) = countNat cl + calls.length := by
  induction calls generalizing cl with
  | nil => simp [trainAll]
  | cons p rest ih =>
    obtain ⟨fs, c⟩ := p
    rw [trainAll, ih, countNat_Train]
    simp [List.length_cons]
    omega

theorem nodup_keys_trainAll (cl : Classifier) (calls : List (List String × String))
    (h : (categories cl).Nodup) : (categories (trainAll cl calls)).Nodup := by
  induction calls generalizing cl with
  | nil => exact h
  | cons p rest ih =>
    obtain ⟨fs, c⟩ := p
    rw [trainAll]
    exact ih _ (by simpa [categories, Train_catCount] using nodup_keys_bump _ c h)

/-! ### Nonnegativity and the evidence sum -/

theorem featureCount_nonneg (cl : Classifier) (t c : String) : 0 ≤ featureCount cl t c := by
  unfold featureCount
  exact_mod_cast Nat.zero_le _

theorem categoryCount_nonneg (cl : Classifier) (c : String) : 0 ≤ categoryCount cl c := by
  unfold categoryCount
  exact_mod_cast Nat.zero_le _

theorem evidenceList_nonneg (cl : Classifier) (t : String) : 0 ≤ evidenceList cl t := by
  refine List.sum_nonneg ?_
  intro x hx
  obtain ⟨c, _, rfl⟩ := List.mem_map.mp hx
  exact featureCount_nonneg cl t c

theorem featureProbability_nonneg (cl : Classifier) (t c : String) :
    0 ≤ featureProbability cl t c := by
  unfold featureProbability
  split
  · exact le_refl 0
  · exact div_nonneg (featureCount_nonneg cl t c) (categoryCount_nonneg cl c)

theorem weightedProbability_nonneg (cl : Classifier) (t c : String) :
    0 ≤ weightedProbability cl t c := by
  unfold weightedProbability variableWeightedProbability
  refine div_nonneg ?_ ?_
  · have h1 : (0:ℚ) ≤ 1 * (1 / 2) := by norm_num
    have h2 : 0 ≤ evidenceList cl t * featureProbability cl t c :=
      mul_nonneg (evidenceList_nonneg cl t) (featureProbability_nonneg cl t c)
    linarith
  · have := evidenceList_nonneg cl t
    linarith

theorem docProbability_foldl (cl : Classifier) (fs : List String) (c : String) (a : ℚ) :
    fs.foldl (fun p f => p * weightedProbability cl f c) a =
      a * (fs.map (fun t => weightedProbability cl t c)).prod := by
  induction fs generalizing a with
  | nil => simp
  | cons f rest ih =>
    rw [List.foldl_cons, ih]
    simp [List.map_cons, List.prod_cons]
    ring

theorem docProbability_eq_prod (cl : Classifier) (fs : List String) (c : String) :
    docProbability cl fs c = (fs.map (fun t => weightedProbability cl t c)).prod := by
  simpa using docProbability_foldl cl fs c 1

theorem docProbability_nonneg (cl : Classifier) (fs : List String) (c : String) :
    0 ≤ docProbability cl fs c := by
  rw [docProbability_eq_prod]
  refine List.prod_nonneg ?_
  intro x hx
  obtain ⟨t, _, rfl⟩ := List.mem_map.mp hx
  exact weightedProbability_nonneg cl t c

theorem probability_nonneg (cl : Classifier) (fs : List String) (c : String) :
    0 ≤ probability cl fs c := by
  unfold probability
  refine mul_nonneg (docProbability_nonneg cl fs c) ?_
  exact div_nonneg (by unfold categoryCount; exact_mod_cast Nat.zero_le _)
    (by exact_mod_cast Nat.zero_le _)

theorem evidenceList_eq_specEvidenceWeight (cl : Classifier) (t : String)
    (h : (categories cl).Nodup) : evidenceList cl t = specEvidenceWeight cl t := by
  unfold evidenceList specEvidenceWeight specTotalCount featureCount
  rw [Nat.cast_sum, List.sum_toFinset _ h]

theorem featureProbability_eq_specConditionalRaw (cl : Classifier) (t c : String) :
    featureProbability cl t c = specConditionalRaw cl t c := by
  unfold featureProbability specConditionalRaw featureCount categoryCount
  by_cases h : (lookupCat cl.catCount c).getD 0 = 0
  · simp [h]
  · have h' : ¬ (((lookupCat cl.catCount c).getD 0 : ℚ) = 0) := by exact_mod_cast h
    simp [h, h']

/-! ### The running-maximum fold of `ClassifyString` -/

theorem classify_foldl_spec (cl : Classifier) (features : List String)
    (l : List String) :
    ∀ (m : ℚ) (w : String),
      m ≤ (l.foldl (classifyStep cl features) (m, w)).1 ∧
      (∀ c ∈ l, probability cl features c ≤ (l.foldl (classifyStep cl features) (m, w)).1) ∧
      (l.foldl (classifyStep cl features) (m, w) = (m, w) ∨
        ((l.foldl (classifyStep cl features) (m, w)).2 ∈ l ∧
          (l.foldl (classifyStep cl features) (m, w)).1 =
            probability cl features (l.foldl (classifyStep cl features) (m, w)).2 ∧
          m < (l.foldl (classifyStep cl features) (m, w)).1)) := by
  induction l with
  | nil =>
    intro m w
    exact ⟨le_refl m, by simp, Or.inl rfl⟩
  | cons c cs ih =>
    intro m w
    rw [List.foldl_cons]
    by_cases h : probability cl features c > m
    · have hstep : classifyStep cl features (m, w) c = (probability cl features c, c) := by
        simp [classifyStep, h]
      rw [hstep]
      obtain ⟨h1, h2, h3⟩ := ih (probability cl features c) c
      refine ⟨le_trans (le_of_lt h) h1, ?_, ?_⟩
      · intro c' hc'
        rcases List.mem_cons.mp hc' with rfl | hc'
        · exact h1
        · exact h2 c' hc'
      · right
        rcases h3 with h3 | ⟨hm, he, hlt⟩
        · rw [h3]
          exact ⟨List.mem_cons_self c cs, rfl, h⟩
        · exact ⟨List.mem_cons_of_mem c hm, he, lt_trans h hlt⟩
    · have hstep : classifyStep cl features (m, w) c = (m, w) := by
        simp [classifyStep, h]
      rw [hstep]
      obtain ⟨h1, h2, h3⟩ := ih m w
      refine ⟨h1, ?_, ?_⟩
      · intro c' hc'
        rcases List.mem_cons.mp hc' with rfl | hc'
        · exact le_trans (not_lt.mp h) h1
        · exact h2 c' hc'
      · rcases h3 with h3 | ⟨hm, he, hlt⟩
        · exact Or.inl h3
        · exact Or.inr ⟨List.mem_cons_of_mem c hm, he, hlt⟩

/-- The winner returned by the fold, starting from the `(0, "")` sentinel. -/
theorem classify_winner_spec (cl : Classifier) (features : List String) :
    ((categories cl).foldl (classifyStep cl features) (0, "") = (0, "") ∨
      (((categories cl).foldl (classifyStep cl features) (0, "")).2 ∈ categories cl ∧
        ((categories cl).foldl (classifyStep cl features) (0, "")).1 =
          probability cl features
            (((categories cl).foldl (classifyStep cl features) (0, "")).2) ∧
        0 < ((categories cl).foldl (classifyStep cl features) (0, "")).1)) ∧
    (∀ c ∈ categories cl,
      probability cl features c ≤
        ((categories cl).foldl (classifyStep cl features) (0, "")).1) :=
  ⟨(classify_foldl_spec cl features (categories cl) 0 "").2.2,
    (classify_foldl_spec cl features (categories cl) 0 "").2.1⟩

/-- The fold's winner is the first-seen maximum under strict greater-than:
unless the accumulator survives untouched, the list splits at the winner,
every earlier category scores strictly below the final maximum and every
later one at most reaches it. -/
theorem classify_foldl_first (cl : Classifier) (features : List String)
    (l : List String) :
    ∀ (m : ℚ) (w : String),
      l.foldl (classifyStep cl features) (m, w) = (m, w) ∨
        (∃ l1 l2, l = l1 ++ (l.foldl (classifyStep cl features) (m, w)).2 :: l2 ∧
          (∀ c ∈ l1,
            probability cl features c < (l.foldl (classifyStep cl features) (m, w)).1) ∧
          (∀ c ∈ l2,
            probability cl features c ≤ (l.foldl (classifyStep cl features) (m, w)).1) ∧
          probability cl features ((l.foldl (classifyStep cl features) (m, w)).2) =
            (l.foldl (classifyStep cl features) (m, w)).1 ∧
          m < (l.foldl (classifyStep cl features) (m, w)).1) := by
  induction l with
  | nil =>
    intro m w
    exact Or.inl rfl
  | cons c cs ih =>
    intro m w
    rw [List.foldl_cons]
    by_cases h : probability cl features c > m
    · have hstep : classifyStep cl features (m, w) c = (probability cl features c, c) := by
        simp [classifyStep, h]
      rw [hstep]
      right
      rcases ih (probability cl features c) c with h0 | ⟨l1, l2, hsplit, hl1, hl2, heq, hlt⟩
      · refine ⟨[], cs, ?_, ?_, ?_, ?_, ?_⟩
        · rw [h0]
          rfl
        · intro c' hc'
          exact absurd hc' (List.not_mem_nil c')
        · intro c' hc'
          have := (classify_foldl_spec cl features cs (probability cl features c) c).2.1 c' hc'
          rw [h0] at this
          rw [h0]
          exact this
        · rw [h0]
        · rw [h0]
          exact h
      · refine ⟨c :: l1, l2, ?_, ?_, hl2, heq, lt_trans h hlt⟩
        · rw [List.cons_append, ← hsplit]
        · intro c' hc'
          rcases List.mem_cons.mp hc' with rfl | hc'
          · exact hlt
          · exact hl1 c' hc'
    · have hstep : classifyStep cl features (m, w) c = (m, w) := by
        simp [classifyStep, h]
      rw [hstep]
      rcases ih m w with h0 | ⟨l1, l2, hsplit, hl1, hl2, heq, hlt⟩
      · exact Or.inl h0
      · right
        refine ⟨c :: l1, l2, ?_, ?_, hl2, heq, hlt⟩
        · rw [List.cons_append, ← hsplit]
        · intro c' hc'
          rcases List.mem_cons.mp hc' with rfl | hc'
          · exact lt_of_le_of_lt (not_lt.mp h) hlt
          · exact hl1 c' hc'

/-! ### Summing the document counts over the key list -/

theorem sum_lookup_keys (l : List (String × Nat)) (h : (l.map Prod.fst).Nodup) :
    ((l.map Prod.fst).map (fun k => (lookupCat l k).getD 0)).sum = (l.map Prod.snd).sum := by
  induction l with
  | nil => simp
  | cons p rest ih =>
    obtain ⟨k, v⟩ := p
    simp only [List.map_cons, List.nodup_cons] at h
    have hhead : (lookupCat ((k, v) :: rest) k).getD 0 = v := by simp [lookupCat]
    have hcong : (rest.map Prod.fst).map (fun k' => (lookupCat ((k, v) :: rest) k').getD 0) =
        (rest.map Prod.fst).map (fun k' => (lookupCat rest k').getD 0) := by
      apply List.map_congr_left
      intro k' hk'
      have hne : ¬ (k = k') := fun he => h.1 (he ▸ hk')
      simp [lookupCat, hne]
    simp only [List.map_cons, List.sum_cons, hhead, hcong, ih h.2]

theorem sum_categoryPrior (cl : Classifier) (h1 : (categories cl).Nodup)
    (h2 : countNat cl ≠ 0) :
    ((categories cl).map (fun c => categoryPrior cl c)).sum = 1 := by
  have hmap : (categories cl).map (fun c => categoryPrior cl c) =
      (categories cl).map (fun c => categoryCount cl c * ((countNat cl : ℚ))⁻¹) := by
    apply List.map_congr_left
    intro c _
    rw [categoryPrior, div_eq_mul_inv]
  rw [hmap, List.sum_map_mul_right]
  have hsum : ((categories cl).map (fun c => categoryCount cl c)).sum = (countNat cl : ℚ) := by
    have hcomp : (categories cl).map (fun c => categoryCount cl c) =
        ((cl.catCount.map Prod.fst).map (fun k => (lookupCat cl.catCount k).getD 0)).map
          (fun n : ℕ => (n : ℚ)) := by
      rw [List.map_map]
      rfl
    rw [hcomp, ← Nat.cast_list_sum, sum_lookup_keys cl.catCount h1]
    rfl
  rw [hsum, mul_inv_cancel₀ (by exact_mod_cast h2)]

/-! ### The growth process of claim C8 -/

theorem trainTimes_feat2cat (cl : Classifier) (t c : String) (k : Nat) :
    (trainTimes cl t c k).feat2cat t c = cl.feat2cat t c + k := by
  induction k with
  | zero => simp [trainTimes]
  | succ k ih =>
    rw [trainTimes, Train_feat2cat, ih]
    simp [List.count_cons]
    omega

theorem trainTimes_catCount (cl : Classifier) (t c : String) (k : Nat) :
    (lookupCat (trainTimes cl t c k).catCount c).getD 0 =
      (lookupCat cl.catCount c).getD 0 + k := by
  induction k with
  | zero => simp [trainTimes]
  | succ k ih =>
    rw [trainTimes, Train_catCount, lookupCat_bump_self, ih]
    simp
    omega

theorem trainTimes_mem (cl : Classifier) (t c : String) (k : Nat)
    (h : c ∈ categories cl) : c ∈ categories (trainTimes cl t c k) := by
  cases k with
  | zero => exact h
  | succ k =>
    show c ∈ (Train (trainTimes cl t c k) [t] c).catCount.map Prod.fst
    rw [Train_catCount]
    exact mem_keys_bump _ c

theorem featureProbability_le_one (cl : Classifier) (t c : String)
    (h : cl.feat2cat t c ≤ (lookupCat cl.catCount c).getD 0) :
    featureProbability cl t c ≤ 1 := by
  unfold featureProbability
  split
  · norm_num
  · rename_i hne
    rw [div_le_one (lt_of_le_of_ne (categoryCount_nonneg cl c) (Ne.symm hne))]
    unfold featureCount categoryCount
    exact_mod_cast h

theorem evidenceList_ge_featureCount (cl : Classifier) (t c : String)
    (h : c ∈ categories cl) : featureCount cl t c ≤ evidenceList cl t := by
  unfold evidenceList
  refine List.single_le_sum ?_ _ (List.mem_map_of_mem _ h)
  intro x hx
  obtain ⟨c', _, rfl⟩ := List.mem_map.mp hx
  exact featureCount_nonneg cl t c'

theorem weighted_sub_featureProbability (cl : Classifier) (t c : String) :
    weightedProbability cl t c - featureProbability cl t c =
      (1 / 2 - featureProbability cl t c) / (1 + evidenceList cl t) := by
  have hpos : (0 : ℚ) < 1 + evidenceList cl t := by
    have := evidenceList_nonneg cl t
    linarith
  unfold weightedProbability variableWeightedProbability
  field_simp
  ring

/-! ### The accumulator of `Probabilities` is inert without positive scores -/

theorem probabilities_foldl_const (cl : Classifier) (features : List String)
    (l : List String) (h : ∀ c ∈ l, ¬ 0 < probability cl features c) :
    l.foldl (probStep cl features) ([], 0, "") = ([], 0, "") := by
  induction l with
  | nil => rfl
  | cons c cs ih =>
    rw [List.foldl_cons]
    have hc := h c (List.mem_cons_self c cs)
    have hstep : probStep cl features ([], 0, "") c = ([], 0, "") := by
      simp [probStep, hc]
    rw [hstep]
    exact ih (fun c' hc' => h c' (List.mem_cons_of_mem c hc'))

/-! ## Claim theorems -/

/-- C1: the weighted probability of a token given a category equals
`(priorWeight * assumedProb + evidenceWeight * conditionalRaw) /
(priorWeight + evidenceWeight)` with priorWeight 1, assumedProb 1/2,
evidenceWeight the token's total count over the known categories, and
conditionalRaw the guarded conditional probability (0 for a category with
zero documents, no division performed there). -/
theorem weighted_eq_spec_blend (cl : Classifier) (t c : String)
    (h : (categories cl).Nodup) :
    weightedProbability cl t c =
      (1 * (1 / 2) + specEvidenceWeight cl t * specConditionalRaw cl t c) /
        (1 + specEvidenceWeight cl t) := by
  unfold weightedProbability variableWeightedProbability
  rw [evidenceList_eq_specEvidenceWeight cl t h, featureProbability_eq_specConditionalRaw]

/-- Witness for C1 at a concrete trained store. -/
theorem weighted_eq_spec_blend_witness :
    (categories clTwoCats).Nodup ∧
      weightedProbability clTwoCats "a" "A" =
        (1 * (1 / 2) + specEvidenceWeight clTwoCats "a" * specConditionalRaw clTwoCats "a" "A") /
          (1 + specEvidenceWeight clTwoCats "a") :=
  ⟨by decide, weighted_eq_spec_blend clTwoCats "a" "A" (by decide)⟩

/-- C2: the per-category score is the category's prior times the product of
the weighted probabilities of the input tokens, one factor per token
occurrence. -/
theorem probability_eq_prior_mul_prod (cl : Classifier) (features : List String)
    (c : String) :
    probability cl features c =
      categoryPrior cl c * (features.map (fun t => weightedProbability cl t c)).prod := by
  unfold probability categoryPrior
  rw [docProbability_eq_prod]
  ring

/-- C3 counterexample: a store whose only category is the empty-string label
gives that category a positive score, yet `ClassifyString` still reports the
not-classified error — so the error is not equivalent to "every category
scored zero or no categories exist". -/
theorem classify_error_despite_positive_score :
    0 < probability clEmptyLabel ["x"] "" ∧
      "" ∈ categories clEmptyLabel ∧
      ClassifyString clEmptyLabel ["x"] = none := by
  refine ⟨?_, ?_, ?_⟩
  · simp [clEmptyLabel, Train, New, addFeature, addCategory, bump, probability,
      docProbability, weightedProbability, variableWeightedProbability, evidenceList,
      categories, featureCount, featureProbability, categoryCount, lookupCat, countNat]
    norm_num
  · simp [clEmptyLabel, Train, New, addFeature, addCategory, bump, categories]
  · simp [clEmptyLabel, Train, New, addFeature, addCategory, bump, ClassifyString,
      classifyStep, probability, docProbability, weightedProbability,
      variableWeightedProbability, evidenceList, categories, featureCount,
      featureProbability, categoryCount, lookupCat, countNat]
    norm_num

/-- C3 (amended): provided the empty string is not among the trained
category labels, `ClassifyString` returns the not-classified error exactly
when every known category's score is zero (vacuously, when the model has no
trained categories); otherwise it returns a known category of maximal
score. -/
theorem classify_error_iff_all_zero (cl : Classifier) (features : List String)
    (h : "" ∉ categories cl) :
    (ClassifyString cl features = none ↔
      ∀ c ∈ categories cl, probability cl features c = 0) ∧
    (∀ w, ClassifyString cl features = some w →
      (w ∈ categories cl ∧
        ∀ c ∈ categories cl, probability cl features c ≤ probability cl features w) ∧
      ∃ l1 l2, categories cl = l1 ++ w :: l2 ∧
        (∀ c ∈ l1, probability cl features c < probability cl features w) ∧
        (∀ c ∈ l2, probability cl features c ≤ probability cl features w)) := by
  obtain ⟨hdisj, hmax⟩ := classify_winner_spec cl features
  set r := (categories cl).foldl (classifyStep cl features) (0, "") with hr
  have hcs : ClassifyString cl features = if r.2 = "" then none else some r.2 := rfl
  constructor
  · constructor
    · intro hnone c hc
      rcases hdisj with h0 | ⟨hmem, _, _⟩
      · have hle := hmax c hc
        rw [h0] at hle
        exact le_antisymm hle (probability_nonneg cl features c)
      · have hr2 : r.2 = "" := by
          by_contra hne
          rw [hcs, if_neg hne] at hnone
          exact Option.some_ne_none _ hnone
        rw [hr2] at hmem
        exact absurd hmem h
    · intro hall
      have hr0 : r = (0, "") := by
        rcases hdisj with h0 | ⟨hmem, heq, hpos⟩
        · exact h0
        · rw [hall r.2 hmem] at heq
          rw [heq] at hpos
          exact absurd hpos (lt_irrefl 0)
      rw [hcs, hr0]
      simp
  · intro w hw
    have hr2 : r.2 = w ∧ r.2 ≠ "" := by
      by_cases hne : r.2 = ""
      · rw [hcs, if_pos hne] at hw
        exact absurd hw (by simp)
      · rw [hcs, if_neg hne] at hw
        exact ⟨Option.some_injective _ hw, hne⟩
    have hpart1 : w ∈ categories cl ∧
        ∀ c ∈ categories cl, probability cl features c ≤ probability cl features w := by
      rcases hdisj with h0 | ⟨hmem, heq, hpos⟩
      · have : r.2 = "" := by rw [h0]
        exact absurd this hr2.2
      · refine ⟨hr2.1 ▸ hmem, ?_⟩
        intro c hc
        rw [← hr2.1, ← heq]
        exact hmax c hc
    refine ⟨hpart1, ?_⟩
    rcases classify_foldl_first cl features (categories cl) 0 "" with h0 | hsplit
    · rw [← hr] at h0
      have : r.2 = "" := by rw [h0]
      exact absurd this hr2.2
    · rw [← hr] at hsplit
      obtain ⟨l1, l2, hsp, hl1, hl2, heq2, _⟩ := hsplit
      refine ⟨l1, l2, by rw [← hr2.1]; exact hsp, ?_, ?_⟩
      · intro c hc
        rw [← hr2.1, heq2]
        exact hl1 c hc
      · intro c hc
        rw [← hr2.1, heq2]
        exact hl2 c hc

/-- Witness for C3 (amended) at a concrete trained store. -/
theorem classify_error_iff_all_zero_witness :
    ("" ∉ categories clTwoCats) ∧
      ((ClassifyString clTwoCats ["a"] = none ↔
        ∀ c ∈ categories clTwoCats, probability clTwoCats ["a"] c = 0) ∧
      (∀ w, ClassifyString clTwoCats ["a"] = some w →
        (w ∈ categories clTwoCats ∧
          ∀ c ∈ categories clTwoCats,
            probability clTwoCats ["a"] c ≤ probability clTwoCats ["a"] w) ∧
        ∃ l1 l2, categories clTwoCats = l1 ++ w :: l2 ∧
          (∀ c ∈ l1, probability clTwoCats ["a"] c < probability clTwoCats ["a"] w) ∧
          (∀ c ∈ l2, probability clTwoCats ["a"] c ≤ probability clTwoCats ["a"] w))) :=
  ⟨by decide, classify_error_iff_all_zero clTwoCats ["a"] (by decide)⟩

/-- C4 counterexample: token "t" has been observed (total count 1), yet its
weighted probability is still exactly 1/2, because its raw conditional
probability happens to equal the assumed probability — refuting the claimed
"equals 0.5 exactly when never observed". -/
theorem weighted_half_despite_evidence :
    weightedProbability clRepeatA "t" "A" = 1 / 2 ∧ specTotalCount clRepeatA "t" ≠ 0 := by
  constructor
  · simp [clRepeatA, Train, New, addFeature, addCategory, bump, weightedProbability,
      variableWeightedProbability, evidenceList, categories, featureCount,
      featureProbability, categoryCount, lookupCat]
    norm_num
  · decide

/-- C4 (amended): the weighted probability equals 1/2 exactly when the token
has never been observed in any category, or its raw conditional probability
is exactly 1/2. -/
theorem weighted_half_iff (cl : Classifier) (t c : String)
    (h : (categories cl).Nodup) :
    weightedProbability cl t c = 1 / 2 ↔
      (specTotalCount cl t = 0 ∨ specConditionalRaw cl t c = 1 / 2) := by
  have hE : evidenceList cl t = (specTotalCount cl t : ℚ) :=
    evidenceList_eq_specEvidenceWeight cl t h
  have hpos : (0 : ℚ) < 1 + evidenceList cl t := by
    have := evidenceList_nonneg cl t
    linarith
  unfold weightedProbability variableWeightedProbability
  rw [featureProbability_eq_specConditionalRaw, div_eq_iff (ne_of_gt hpos)]
  constructor
  · intro heq
    have h3 : evidenceList cl t * (specConditionalRaw cl t c - 1 / 2) = 0 := by
      have hms := mul_sub (evidenceList cl t) (specConditionalRaw cl t c) ((1 : ℚ) / 2)
      nlinarith [heq]
    rcases mul_eq_zero.mp h3 with h0 | h0
    · left
      rw [hE] at h0
      exact_mod_cast h0
    · right
      linarith
  · intro hor
    rcases hor with h0 | h0
    · rw [hE, h0]
      norm_num
    · rw [h0]
      ring

/-- Witness for C4 (amended) at a concrete trained store. -/
theorem weighted_half_iff_witness :
    (categories clTwoCats).Nodup ∧
      (weightedProbability clTwoCats "zz" "A" = 1 / 2 ↔
        (specTotalCount clTwoCats "zz" = 0 ∨ specConditionalRaw clTwoCats "zz" "A" = 1 / 2)) :=
  ⟨by decide, weighted_half_iff clTwoCats "zz" "A" (by decide)⟩

/-- C5: after at least one training call, the category priors over all known
categories sum to exactly 1 (rational arithmetic stands in for float64). -/
theorem priors_sum_to_one (calls : List (List String × String)) (h : calls ≠ []) :
    ((categories (trainAll New calls)).map
      (fun c => categoryPrior (trainAll New calls) c)).sum = 1 := by
  apply sum_categoryPrior
  · exact nodup_keys_trainAll New calls (by simp [categories, New])
  · rw [countNat_trainAll]
    have hlen : calls.length ≠ 0 := fun h0 => h (List.length_eq_zero.mp h0)
    simpa [countNat, New] using hlen

/-- Witness for C5 with one concrete training call. -/
theorem priors_sum_to_one_witness :
    ([(["a"], "A")] : List (List String × String)) ≠ [] ∧
      ((categories (trainAll New [(["a"], "A")])).map
        (fun c => categoryPrior (trainAll New [(["a"], "A")]) c)).sum = 1 :=
  ⟨by simp, priors_sum_to_one [(["a"], "A")] (by simp)⟩

/-- C6: when no category scores strictly above zero, `Probabilities` returns
the empty score mapping and the empty best-category string; it is a total
function with no error path. -/
theorem probabilities_empty_of_no_positive (cl : Classifier) (features : List String)
    (h : ∀ c ∈ categories cl, ¬ 0 < probability cl features c) :
    Probabilities cl features = ([], "") := by
  unfold Probabilities
  rw [probabilities_foldl_const cl features (categories cl) h]

/-- Witness for C6 on the untrained store. -/
theorem probabilities_empty_of_no_positive_witness :
    (∀ c ∈ categories New, ¬ 0 < probability New ["x"] c) ∧
      Probabilities New ["x"] = ([], "") :=
  ⟨by simp [categories, New], probabilities_empty_of_no_positive New ["x"]
    (by simp [categories, New])⟩

/-- C7: the sum of all category document counts equals the number of
training calls: it is 0 in the empty store, each train call adds exactly one
to its category's count (and one to the total), and after any training
trace from the empty store the total equals the trace length. Classification
operations are pure functions of the store and do not appear: they cannot
modify it. -/
theorem catCount_sum_invariant :
    countNat New = 0 ∧
    (∀ (cl : Classifier) (fs : List String) (c : String),
      countNat (Train cl fs c) = countNat cl + 1 ∧
      (lookupCat (Train cl fs c).catCount c).getD 0 =
        (lookupCat cl.catCount c).getD 0 + 1) ∧
    (∀ calls : List (List String × String), countNat (trainAll New calls) = calls.length) := by
  refine ⟨rfl, ?_, ?_⟩
  · intro cl fs c
    refine ⟨countNat_Train cl fs c, ?_⟩
    rw [Train_catCount, lookupCat_bump_self]
    simp
  · intro calls
    rw [countNat_trainAll]
    simp [countNat, New]

/-- C8 counterexample: one more training observation of token "y" in
category "c" (all other categories untouched) strictly decreases the
weighted probability of "y" given "c" — refuting the claimed monotone
non-decrease. -/
theorem weighted_decreases_under_evidence :
    weightedProbability (Train clC8a ["y"] "c") "y" "c" <
      weightedProbability clC8a "y" "c" := by
  simp [clC8a, Train, New, addFeature, addCategory, bump, weightedProbability,
    variableWeightedProbability, evidenceList, categories, featureCount,
    featureProbability, categoryCount, lookupCat]
  norm_num

/-- C8 (amended): as training observations of token `t` in category `c`
accumulate (each a further training call with a document containing `t`
once, all other categories held fixed, `c` already a known category), the
weighted probability converges to the raw conditional probability: after
`k` further observations the gap is at most `1/(2*(k+1)) + 1/(d0+k)`,
where `d0` is `c`'s document count at the start — a bound that tends
to 0. The weighted probability itself need not be non-decreasing. -/
theorem weighted_converges_to_conditional (cl : Classifier) (t c : String)
    (hmem : c ∈ categories cl) :
    ∀ k : ℕ,
      |weightedProbability (trainTimes cl t c k) t c -
        featureProbability (trainTimes cl t c k) t c| ≤
        1 / (2 * ((k : ℚ) + 1)) +
          1 / (((lookupCat cl.catCount c).getD 0 : ℚ) + (k : ℚ)) := by
  intro k
  have hmemk : c ∈ categories (trainTimes cl t c k) := trainTimes_mem cl t c k hmem
  have hfeat : featureCount (trainTimes cl t c k) t c =
      (cl.feat2cat t c : ℚ) + (k : ℚ) := by
    unfold featureCount
    rw [trainTimes_feat2cat]
    push_cast
    ring
  have hcat : categoryCount (trainTimes cl t c k) c =
      ((lookupCat cl.catCount c).getD 0 : ℚ) + (k : ℚ) := by
    unfold categoryCount
    rw [trainTimes_catCount]
    push_cast
    ring
  have hNE : featureCount (trainTimes cl t c k) t c ≤
      evidenceList (trainTimes cl t c k) t :=
    evidenceList_ge_featureCount _ t c hmemk
  have hN0 : (0 : ℚ) ≤ featureCount (trainTimes cl t c k) t c :=
    featureCount_nonneg _ t c
  have hkN : (k : ℚ) ≤ featureCount (trainTimes cl t c k) t c := by
    rw [hfeat]
    have h0 : (0 : ℚ) ≤ (cl.feat2cat t c : ℚ) := by exact_mod_cast Nat.zero_le _
    linarith
  have hE0 : 0 ≤ evidenceList (trainTimes cl t c k) t := evidenceList_nonneg _ t
  have hEpos : (0 : ℚ) < 1 + evidenceList (trainTimes cl t c k) t := by linarith
  have hkE : (k : ℚ) ≤ evidenceList (trainTimes cl t c k) t := le_trans hkN hNE
  have hp0 : 0 ≤ featureProbability (trainTimes cl t c k) t c :=
    featureProbability_nonneg _ t c
  have htail : (0 : ℚ) ≤ 1 / (((lookupCat cl.catCount c).getD 0 : ℚ) + (k : ℚ)) := by
    refine div_nonneg (by norm_num) ?_
    positivity
  rw [weighted_sub_featureProbability, abs_div, abs_of_pos hEpos]
  by_cases hp1 : featureProbability (trainTimes cl t c k) t c ≤ 1
  · have hnum : |1 / 2 - featureProbability (trainTimes cl t c k) t c| ≤ 1 / 2 :=
      abs_le.mpr ⟨by linarith, by linarith⟩
    calc |1 / 2 - featureProbability (trainTimes cl t c k) t c| /
          (1 + evidenceList (trainTimes cl t c k) t) ≤
        (1 / 2) / ((k : ℚ) + 1) :=
          div_le_div₀ (by norm_num) hnum (by positivity) (by linarith)
      _ = 1 / (2 * ((k : ℚ) + 1)) := by rw [div_div]
      _ ≤ 1 / (2 * ((k : ℚ) + 1)) +
          1 / (((lookupCat cl.catCount c).getD 0 : ℚ) + (k : ℚ)) := by linarith
  · push_neg at hp1
    have hgne : ¬ categoryCount (trainTimes cl t c k) c = 0 := by
      intro h0
      rw [featureProbability, if_pos h0] at hp1
      norm_num at hp1
    have hDpos : (0 : ℚ) < categoryCount (trainTimes cl t c k) c :=
      lt_of_le_of_ne (categoryCount_nonneg _ c) (Ne.symm hgne)
    have hpdef : featureProbability (trainTimes cl t c k) t c =
        featureCount (trainTimes cl t c k) t c / categoryCount (trainTimes cl t c k) c := by
      rw [featureProbability, if_neg hgne]
    have habs : |1 / 2 - featureProbability (trainTimes cl t c k) t c| ≤
        featureProbability (trainTimes cl t c k) t c := by
      rw [abs_of_nonpos (by linarith : (1 : ℚ) / 2 -
        featureProbability (trainTimes cl t c k) t c ≤ 0)]
      linarith
    have hNle : featureCount (trainTimes cl t c k) t c ≤
        1 + evidenceList (trainTimes cl t c k) t := by linarith
    have h2 : featureProbability (trainTimes cl t c k) t c /
        (1 + evidenceList (trainTimes cl t c k) t) ≤
        1 / categoryCount (trainTimes cl t c k) c := by
      rw [hpdef, div_div, div_le_div_iff₀ (by positivity) hDpos]
      nlinarith [mul_nonneg hDpos.le (sub_nonneg.mpr hNle)]
    calc |1 / 2 - featureProbability (trainTimes cl t c k) t c| /
          (1 + evidenceList (trainTimes cl t c k) t) ≤
        featureProbability (trainTimes cl t c k) t c /
          (1 + evidenceList (trainTimes cl t c k) t) :=
          div_le_div₀ hp0 habs hEpos (le_refl _)
      _ ≤ 1 / categoryCount (trainTimes cl t c k) c := h2
      _ = 1 / (((lookupCat cl.catCount c).getD 0 : ℚ) + (k : ℚ)) := by rw [hcat]
      _ ≤ 1 / (2 * ((k : ℚ) + 1)) +
          1 / (((lookupCat cl.catCount c).getD 0 : ℚ) + (k : ℚ)) := by
            have hfirst : (0 : ℚ) ≤ 1 / (2 * ((k : ℚ) + 1)) := by positivity
            linarith

/-- Witness for C8 (amended) at a concrete store and k = 2. -/
theorem weighted_converges_to_conditional_witness :
    ("c" ∈ categories clOne) ∧
      |weightedProbability (trainTimes clOne "t" "c" 2) "t" "c" -
        featureProbability (trainTimes clOne "t" "c" 2) "t" "c"| ≤
        1 / (2 * (((2 : ℕ) : ℚ) + 1)) +
          1 / (((lookupCat clOne.catCount "c").getD 0 : ℚ) + ((2 : ℕ) : ℚ)) :=
  ⟨by decide, weighted_converges_to_conditional clOne "t" "c" (by decide) 2⟩

/-- C10: `ClassifyString` never reports the empty string as a successful
classification, and when the empty-string label strictly dominates every
other category's score the call returns the not-classified error despite the
positive score, because failure is detected by comparing the winner label
with `""`. -/
theorem classify_never_returns_empty_label (cl : Classifier) (features : List String) :
    (∀ s, ClassifyString cl features = some s → s ≠ "") ∧
    ("" ∈ categories cl →
      (∀ c ∈ categories cl, c ≠ "" →
        probability cl features c < probability cl features "") →
      ClassifyString cl features = none) := by
  obtain ⟨hdisj, hmax⟩ := classify_winner_spec cl features
  set r := (categories cl).foldl (classifyStep cl features) (0, "") with hr
  have hcs : ClassifyString cl features = if r.2 = "" then none else some r.2 := rfl
  constructor
  · intro s hs
    by_cases hne : r.2 = ""
    · rw [hcs, if_pos hne] at hs
      exact absurd hs (by simp)
    · rw [hcs, if_neg hne] at hs
      rw [← Option.some_injective _ hs]
      exact hne
  · intro hmem01 hdom
    rw [hcs]
    by_cases hne : r.2 = ""
    · rw [if_pos hne]
    · exfalso
      rcases hdisj with h0 | ⟨hmem, heq, _⟩
      · exact hne (by rw [h0])
      · have hlt := hdom r.2 hmem hne
        have hle := hmax "" hmem01
        rw [← heq] at hlt
        exact absurd (lt_of_le_of_lt hle hlt) (lt_irrefl (probability cl features ""))

/-- Witness for C10: the store trained only under the empty-string label. -/
theorem classify_never_returns_empty_label_witness :
    ClassifyString clEmptyLabel ["x"] = none :=
  (classify_never_returns_empty_label clEmptyLabel ["x"]).2 (by decide)
    (by
      intro c hc hne
      exfalso
      apply hne
      have hcat : categories clEmptyLabel = [""] := by decide
      rw [hcat] at hc
      simpa using hc)

end NaiveBayes
